import Mathlib

/-!
Verification of the regex→text highlight mapping engine of the
`regex_visualiser` repository, shallowly embedded from
`src/app/parsing.rs`, `src/app/text.rs`, `src/app/state.rs` and
`src/app/ui/editor.rs`.

Strings are modelled as `List Char`; byte offsets are UTF-8 byte offsets
computed from the per-character encoded width.  Code that can panic in
Rust (slice indexing with an out-of-range range, `Option::unwrap`, a
failing `assert_eq!`) is modelled in the `Option` monad, with `none`
standing for the panic.
-/

/-- A half-open index range `[start, stop)`, the embedding of Rust's
`Range<usize>` (used both for byte ranges and for char/glyph ranges). -/
structure NatRange where
  start : Nat
  stop : Nat
  deriving DecidableEq, Repr

/-- Membership of an index in a half-open range. -/
def NatRange.holds (r : NatRange) (b : Nat) : Prop :=
  r.start ≤ b ∧ b < r.stop

instance (r : NatRange) (b : Nat) : Decidable (r.holds b) :=
  inferInstanceAs (Decidable (_ ∧ _))

/-- The embedding of `egui::Color32` (8-bit rgba). -/
structure Color32 where
  r : Nat
  g : Nat
  b : Nat
  a : Nat
  deriving DecidableEq, Repr

/-- The constructor `Color32::from_rgb` (fully opaque). -/
def Color32.fromRgb (r g b : Nat) : Color32 := ⟨r, g, b, 255⟩

/-- The constant `Color32::TRANSPARENT`. -/
def Color32.transparent : Color32 := ⟨0, 0, 0, 0⟩

/-- The constant `Color32::WHITE`. -/
def Color32.white : Color32 := Color32.fromRgb 255 255 255

/-- The constant `Color32::RED`. -/
def Color32.red : Color32 := Color32.fromRgb 255 0 0

/-- The constant `Color32::GRAY`, the default text color of `egui::TextFormat`. -/
def Color32.gray : Color32 := Color32.fromRgb 160 160 160

instance : Inhabited Color32 := ⟨Color32.transparent⟩

/-- Palette constants from `src/app/colors.rs`. -/
def FG_RED : Color32 := Color32.red

/-- Error background `BG_RED` from `src/app/colors.rs`. -/
def BG_RED : Color32 := Color32.fromRgb 104 41 47

/-- Background highlight colors from `src/app/colors.rs`:
blue, yellow, pink. -/
def BACKGROUND_COLORS : List Color32 :=
  [Color32.fromRgb 38 77 109, Color32.fromRgb 108 94 32, Color32.fromRgb 97 63 97]

/-- The embedding of `egui::TextFormat`; only the foreground and background
colors are retained (the font id is opaque to the core and the same
monospace font is used for every run). -/
structure TextFormat where
  color : Color32
  background : Color32
  deriving DecidableEq, Repr

/-- The default `TextFormat::default()`: gray text on a transparent background. -/
def TextFormat.default : TextFormat := ⟨Color32.gray, Color32.transparent⟩

instance : Inhabited TextFormat := ⟨TextFormat.default⟩

/-- The constructor `TextFormat::simple(font_id, color)`. -/
def TextFormat.simple (color : Color32) : TextFormat := ⟨color, Color32.transparent⟩

/-- The `FromBackgroundExt::background` constructor from `src/app/colors.rs`:
white text on the given background. -/
def TextFormat.background' (background : Color32) : TextFormat := ⟨Color32.white, background⟩

/-- The embedding of `egui::text::LayoutSection` (the `leading_space` field is
always `0.0` in this codebase and is omitted). -/
structure LayoutSection where
  byte_range : NatRange
  format : TextFormat
  deriving DecidableEq, Repr

/-- The embedding of `egui::text::LayoutJob`: the text plus its format runs. -/
structure LayoutJob where
  text : List Char := []
  sections : List LayoutSection := []
  deriving DecidableEq, Repr

instance : Inhabited LayoutJob := ⟨{}⟩

/-- The struct `RegexLayout` from `src/app/parsing.rs`. -/
structure RegexLayout where
  job : LayoutJob := {}
  capture_group_chars : List (Nat × NatRange) := []
  capture_group_colors : List Color32 := []
  deriving DecidableEq, Repr

instance : Inhabited RegexLayout := ⟨{}⟩

/-- The struct `MatchedTextLayout` from `src/app/parsing.rs`. -/
structure MatchedTextLayout where
  job : LayoutJob := {}
  capture_group_chars : List (List (Option NatRange)) := []
  deriving DecidableEq, Repr

instance : Inhabited MatchedTextLayout := ⟨{}⟩

/-- The number of bytes of the UTF-8 encoding of a character
(`char::len_utf8`). -/
def charBytes (c : Char) : Nat :=
  if c.toNat < 0x80 then 1
  else if c.toNat < 0x800 then 2
  else if c.toNat < 0x10000 then 3
  else 4

theorem charBytes_pos (c : Char) : 0 < charBytes c := by
  unfold charBytes
  split <;> [simp; split <;> [simp; split <;> simp]]

/-- The UTF-8 byte length of a string (`str::len`). -/
def utf8Len : List Char → Nat
  | [] => 0
  | c :: cs => charBytes c + utf8Len cs

theorem utf8Len_append (s t : List Char) :
    utf8Len (s ++ t) = utf8Len s + utf8Len t := by
  induction s with
  | nil => simp [utf8Len]
  | cons c cs ih => simp [utf8Len, ih]; omega

theorem utf8Len_pos {s : List Char} (h : s ≠ []) : 0 < utf8Len s := by
  cases s with
  | nil => exact absurd rfl h
  | cons c cs => have := charBytes_pos c; simp [utf8Len]; omega

/-- The function `str_glyph_count` from `src/app/parsing.rs`: the number of chars of the
string, excluding newlines (egui lays out no glyph for a newline). -/
def str_glyph_count (s : List Char) : Nat :=
  s.length - (s.filter (fun c => c = '\n')).length

/-- Take a prefix of exactly `n` UTF-8 bytes from a string, failing when `n`
overshoots the string or falls inside the encoding of a character.  Together
with `dropBytes` this models Rust's `str::get` on ranges. -/
def takeBytes : List Char → Nat → Option (List Char)
  | _, 0 => some []
  | [], _ + 1 => none
  | c :: cs, n + 1 =>
    if charBytes c ≤ n + 1 then (takeBytes cs (n + 1 - charBytes c)).map (c :: ·)
    else none

/-- Drop a prefix of exactly `n` UTF-8 bytes from a string, failing when `n`
overshoots the string or falls inside the encoding of a character. -/
def dropBytes : List Char → Nat → Option (List Char)
  | s, 0 => some s
  | [], _ + 1 => none
  | c :: cs, n + 1 =>
    if charBytes c ≤ n + 1 then dropBytes cs (n + 1 - charBytes c)
    else none

/-- Rust's `str::get(range)`: the substring of the byte range, or `None` when
an endpoint is out of bounds or not on a character boundary, or when
`start > stop`. -/
def strGet (s : List Char) (r : NatRange) : Option (List Char) :=
  if r.start ≤ r.stop then
    (dropBytes s r.start).bind (fun t => takeBytes t (r.stop - r.start))
  else none

/-- The function `convert_byte_range_to_char_range` from `src/app/parsing.rs`: split the
text at the byte-range endpoints and measure glyph counts. -/
def convert_byte_range_to_char_range (range : NatRange) (text : List Char) :
    Option NatRange :=
  match strGet text ⟨0, range.start⟩, strGet text range with
  | some head, some tail =>
    some ⟨str_glyph_count head, str_glyph_count head + str_glyph_count tail⟩
  | _, _ => none

/-- The embedding of `RegexError` from `src/app/parsing.rs`.  A parse error
carries the primary span and the optional auxiliary span reported by
`regex_syntax` (only byte offsets are retained); a compile error carries no
span. -/
inductive RegexError where
  | parse (span : NatRange) (aux : Option NatRange)
  | compile
  deriving DecidableEq, Repr

/-- Lexicographic comparison of spans, the derived `Ord` of
`regex_syntax::ast::Span` restricted to offsets. -/
def spanLE (a b : NatRange) : Prop :=
  a.start < b.start ∨ (a.start = b.start ∧ a.stop ≤ b.stop)

instance (a b : NatRange) : Decidable (spanLE a b) :=
  inferInstanceAs (Decidable (_ ∨ _))

/-- Rust `Ord::min` on spans (returns the first argument on ties). -/
def spanMin (a b : NatRange) : NatRange := if spanLE a b then a else b

/-- Rust `Ord::max` on spans (returns the second argument on ties). -/
def spanMax (a b : NatRange) : NatRange := if spanLE a b then b else a

/-- The `plaintext` helper of `layout_regex_err`: plain red text. -/
def errPlaintext (byte_range : NatRange) : LayoutSection :=
  ⟨byte_range, TextFormat.simple FG_RED⟩

/-- The `highlight` helper of `layout_regex_err`: white text on the dark-red
error background. -/
def errHighlight (byte_range : NatRange) : LayoutSection :=
  ⟨byte_range, ⟨Color32.white, BG_RED⟩⟩

/-- The function `layout_regex_err` from `src/app/parsing.rs`. -/
def layout_regex_err (regex : List Char) (err : RegexError) : RegexLayout :=
  let len := utf8Len regex
  let sections :=
    match err with
    | .compile => [errHighlight ⟨0, len⟩]
    | .parse e none =>
      [errPlaintext ⟨0, e.start⟩, errHighlight e, errPlaintext ⟨e.stop, len⟩]
    | .parse e (some a) =>
      let mn := spanMin e a
      let mx := spanMax e a
      [errPlaintext ⟨0, mn.start⟩, errHighlight mn, errPlaintext ⟨mn.stop, mx.start⟩,
        errHighlight mx, errPlaintext ⟨mx.stop, len⟩]
  { job := { text := regex, sections }
    capture_group_chars := []
    capture_group_colors := [] }

/-- The function `layout_plain_text` from `src/app/parsing.rs`
(`LayoutJob::single_section` with the default format). -/
def layout_plain_text (text : List Char) : LayoutJob :=
  { text, sections := [⟨⟨0, utf8Len text⟩, TextFormat.default⟩] }

mutual

/-- The embedding of `regex_syntax::ast::Ast`, keeping exactly the structure
the AST walker of `src/app/parsing.rs` inspects: concatenations,
alternations, repetitions and groups (with the 1-based capture index of a
capturing group and the group's byte span); every other node kind falls
into the walker's wildcard arm and is collapsed into `atom`. -/
inductive Ast where
  | concat (asts : AstList)
  | alternation (asts : AstList)
  | repetition (ast : Ast)
  | group (captureIndex : Option Nat) (span : NatRange) (ast : Ast)
  | atom

/-- An ordered list of AST children (isomorphic to `List Ast`; a separate
inductive keeps the mutual recursion structural). -/
inductive AstList where
  | nil
  | cons (a : Ast) (rest : AstList)

end

mutual

/-- The function `ast_find_capture_groups_recurse` from `src/app/parsing.rs`.  The
accumulating vector is threaded explicitly; a failing
`assert_eq!(vec.len() + 1, i)` is modelled as `none`.  Note that the source
does not recurse into non-capturing groups: their `if let Some(i)` arm
simply does nothing. -/
def walkAst (depth : Nat) (ast : Ast) (vec : List (Nat × NatRange)) :
    Option (List (Nat × NatRange)) :=
  match ast with
  | .repetition a => walkAst (depth + 1) a vec
  | .group cap sp a =>
    match cap with
    | some i =>
      if vec.length + 1 = i then walkAst (depth + 1) a (vec ++ [(depth, sp)])
      else none
    | none => some vec
  | .alternation asts => walkAstList (depth + 1) asts vec
  | .concat asts => walkAstList (depth + 1) asts vec
  | .atom => some vec

/-- The walker's `for ast in &asts` loops: children are visited left to
right, all at the same (already incremented) depth. -/
def walkAstList (depth : Nat) (asts : AstList) (vec : List (Nat × NatRange)) :
    Option (List (Nat × NatRange)) :=
  match asts with
  | .nil => some vec
  | .cons a rest => (walkAst depth a vec).bind (walkAstList depth rest)

end

/-- The function `ast_find_capture_groups` from `src/app/parsing.rs`. -/
def ast_find_capture_groups (ast : Ast) : Option (List (Nat × NatRange)) :=
  walkAst 0 ast []

mutual

/-- The byte spans of all group nodes (capturing or not) of an AST, used to
state the regex adapter's span guarantee. -/
def astGroupSpans : Ast → List NatRange
  | .concat asts => astGroupSpansList asts
  | .alternation asts => astGroupSpansList asts
  | .repetition a => astGroupSpans a
  | .group _ sp a => sp :: astGroupSpans a
  | .atom => []

/-- Group spans of a list of AST children. -/
def astGroupSpansList : AstList → List NatRange
  | .nil => []
  | .cons a rest => astGroupSpans a ++ astGroupSpansList rest

end

/-- Pointwise worker for `setRange`: position `i + offset` of the original
array corresponds to position `i` of the remaining list. -/
def setRangeGo (v start stop : Nat) : Nat → List Nat → List Nat
  | _, [] => []
  | i, x :: xs => (if start ≤ i ∧ i < stop then v else x) :: setRangeGo v start stop (i + 1) xs

/-- Write `v` into every position of `m` that lies in the range `r`:
the pointwise meaning of Rust's `m[range].fill(v)`. -/
def setRange (m : List Nat) (r : NatRange) (v : Nat) : List Nat :=
  setRangeGo v r.start r.stop 0 m

/-- Rust's `m[range].fill(v)` including its panic behavior: slicing requires
`start ≤ stop ≤ m.len()`. -/
def fillChecked (m : List Nat) (r : NatRange) (v : Nat) : Option (List Nat) :=
  if r.start ≤ r.stop ∧ r.stop ≤ m.length then some (setRange m r v) else none

/-- The marker-fill loops of `regex_parse_ast` and `layout_matched_text`:
for the `j`-th entry of `rs` (counting from `idx`), a present range is
filled with marker value `idx + j + 1`; absent entries are skipped but still
advance the index (`enumerate` before `filter_map` in the source). -/
def fillOpt : List Nat → List (Option NatRange) → Nat → Option (List Nat)
  | m, [], _ => some m
  | m, none :: rest, idx => fillOpt m rest (idx + 1)
  | m, some r :: rest, idx =>
    (fillChecked m r (idx + 1)).bind (fun m' => fillOpt m' rest (idx + 1))

/-- The value the marker array holds at byte `b` after `fillOpt`:
the 1-based index of the last listed range containing `b`, or the starting
accumulator when none does. -/
def lastWriter (b : Nat) : List (Option NatRange) → Nat → Nat → Nat
  | [], _, cur => cur
  | none :: rest, idx, cur => lastWriter b rest (idx + 1) cur
  | some r :: rest, idx, cur =>
    lastWriter b rest (idx + 1) (if r.holds b then idx + 1 else cur)

/-- The run-length-encoding loop shared by `regex_parse_ast`,
`layout_matched_text` and `build_layout_sections`: walk the adjacent pairs
of the marker array, breaking a section at every inequality; `head`/`len`
are the loop's cursor variables and `pairs` the rest of the
`windows(2)` iterator.  The trailing run is emitted after the loop with the
format of `marker[head]`. -/
def rleAux (C : Nat → TextFormat) (marker : List Nat) :
    Nat → Nat → List (Nat × Nat) → List LayoutSection
  | head, len, [] => [⟨⟨head, len⟩, C (marker.getD head 0)⟩]
  | head, len, (l, r) :: rest =>
    if l = r then rleAux C marker head (len + 1) rest
    else ⟨⟨head, len⟩, C l⟩ :: rleAux C marker len (len + 1) rest

/-- Run-length encode a marker array into format runs.  The source loops are
only ever reached with a non-empty marker (every caller returns early on
empty text); on an empty marker this embedding returns no sections, which is
also what `TextLayoutJob::build_layout_sections` does on empty text. -/
def rleSections (C : Nat → TextFormat) (marker : List Nat) : List LayoutSection :=
  match marker with
  | [] => []
  | _ => rleAux C marker 0 1 (marker.zip marker.tail)

/-- The function `build_layout_sections` from `src/app/text.rs`: mark each byte of the
string with the (1-based) index of its range, then run-length encode.  The
`colors` list is indexed by marker value. -/
def build_layout_sections (section_indexes : List Nat) (ranges : List NatRange)
    (colors : List Color32) : Option (List LayoutSection) :=
  (fillOpt section_indexes (ranges.map some) 0).map
    (rleSections (fun i => TextFormat.background' (colors.getD i Color32.transparent)))

/-- The capture-group color assignment of `regex_parse_ast`:
`BACKGROUND_COLORS.into_iter().cycle().take(n)`. -/
def paletteCycle (n : Nat) : List Color32 :=
  (List.range n).map
    (fun k => BACKGROUND_COLORS.getD (k % BACKGROUND_COLORS.length) Color32.transparent)

/-- The function `regex_parse_ast` from `src/app/parsing.rs`.  The `previous_layout`
parameter is declared but never read by the source; it is kept for
faithfulness.  `none` models the panics of the source's `unwrap`s, of the
walker's assertion and of an out-of-bounds marker fill. -/
def regex_parse_ast (regex : List Char) (ast : Ast)
    (previous_layout : Option RegexLayout) : Option RegexLayout :=
  if regex.isEmpty then some {} else do
  let ranges ← ast_find_capture_groups ast
  let max_depth := (ranges.map Prod.fst).foldl Nat.max 0
  let capture_group_chars ← ranges.mapM (fun dr => do
    -- `(0..=max_depth).nth_back(d).unwrap()` inverts the depth
    let inv ← if dr.1 ≤ max_depth then some (max_depth - dr.1) else none
    let cr ← convert_byte_range_to_char_range dr.2 regex
    pure (inv, cr))
  let capture_group_colors := Color32.transparent :: paletteCycle ranges.length
  let marker ← fillOpt (List.replicate (utf8Len regex) 0) (ranges.map (fun dr => some dr.2)) 0
  pure { job := { text := regex
                  sections := rleSections
                    (fun i => TextFormat.background'
                      (capture_group_colors.getD i Color32.transparent)) marker }
         capture_group_chars
         capture_group_colors }

/-- The embedding of a compiled `regex::Regex` together with the behavior the
core consumes from it: `as_str()` (the pattern), `captures_iter` (for each
whole match, the optional byte range of every capture group, group 0 — the
whole match — included) and `replace_all`.  The regex engine itself is an
external collaborator, so its behavior is carried as data. -/
structure Matcher where
  pattern : List Char
  captures : List Char → List (List (Option NatRange))
  replaceAll : List Char → List Char → List Char

/-- One iteration of the `captures_iter` loop of `layout_matched_text`
(src/app/parsing.rs): drop group 0, fill the marker with each participating
group's 1-based index, and convert every participating range to a char
range (`unwrap` modelled as `none`).  Returns the final marker and the
per-match char-range tables in order. -/
def collectMatches (text : List Char) :
    List Nat → List (List (Option NatRange)) →
    Option (List Nat × List (List (Option NatRange)))
  | marker, [] => some (marker, [])
  | marker, c :: cs => do
    let ranges := c.drop 1
    let marker' ← fillOpt marker ranges 0
    let char_ranges ← ranges.mapM (fun o =>
      match o with
      | none => some none
      | some r => (convert_byte_range_to_char_range r text).map some)
    let (markerF, rest) ← collectMatches text marker' cs
    pure (markerF, char_ranges :: rest)

/-- The function `layout_matched_text` from `src/app/parsing.rs`. -/
def layout_matched_text (text : List Char) (regex : Matcher)
    (capture_group_colors : List Color32) : Option MatchedTextLayout :=
  if text.isEmpty then some {} else
  if regex.pattern.isEmpty then
    some { job := layout_plain_text text, capture_group_chars := [] }
  else do
  let (marker, capture_group_chars) ←
    collectMatches text (List.replicate (utf8Len text) 0) (regex.captures text)
  pure { job := { text
                  sections := rleSections
                    (fun i => TextFormat.background'
                      (capture_group_colors.getD i Color32.transparent)) marker }
         capture_group_chars }

/-- The struct `LogicState` from `src/app/state.rs` (the `selector` field feeds only the
out-of-scope inspector panel and is omitted). -/
structure LogicState where
  ast : Ast
  regex : Matcher
  regex_layout : RegexLayout
  input_layout : MatchedTextLayout

/-- The function `LogicState::new` from `src/app/state.rs`: `compile_regex(pattern)` is an
external call whose result is passed in; on success the regex and input
decorations are built, the previous state seeding the color carry-over
parameter.  The outer `Option` models the panics inside the builders. -/
def logicStateNew (compiled : Except RegexError (Ast × Matcher))
    (regex_text input_text : List Char) (previous_state : Option LogicState) :
    Option (Except RegexError LogicState) :=
  match compiled with
  | .error e => some (.error e)
  | .ok (ast, regex) => do
    let regex_layout ← regex_parse_ast regex_text ast
      (previous_state.map (fun s => s.regex_layout))
    let input_layout ← layout_matched_text input_text regex
      regex_layout.capture_group_colors
    pure (.ok { ast, regex, regex_layout, input_layout })

/-- The function `result_body` from `src/app/ui/editor.rs` as a state transition on the
result text: when one of the inputs changed and the bundle is not in an
error state, re-run `replace_all`; otherwise the previous result text is
kept. -/
def resultBodyStep (logic : Except RegexError LogicState)
    (input_text replace_text result_text : List Char) (changed : Bool) :
    List Char :=
  if changed then
    match logic with
    | .ok l => l.regex.replaceAll input_text replace_text
    | .error _ => result_text
  else result_text

/-- The guards of `connecting_lines` from `src/app/ui/editor.rs`: in an error
state the function returns before painting anything, and with at most the
sentinel color (no real capture group) it also returns; only otherwise are
connector shapes emitted. -/
def connectingLinesEmitsShapes (logic : Except RegexError LogicState) : Bool :=
  match logic with
  | .error _ => false
  | .ok l =>
    match l.regex_layout.capture_group_colors with
    | [] => false
    | _ :: tail => !tail.isEmpty

/-- The regex editor's layouter from `src/app/ui/editor.rs`: the error
decoration on an error state, the cached regex decoration otherwise. -/
def regexEditorJob (logic : Except RegexError LogicState) (text : List Char) :
    LayoutJob :=
  match logic with
  | .error e => (layout_regex_err text e).job
  | .ok l => l.regex_layout.job

/-- The chaining predicate behind tiling: the listed byte ranges start at `a`,
each further range starts where the previous one stopped, and the last one
stops at `b`. -/
def chainFrom : Nat → List LayoutSection → Nat → Prop
  | a, [], b => a = b
  | a, s :: rest, b => s.byte_range.start = a ∧ chainFrom s.byte_range.stop rest b

/-- Tile completeness of a list of format runs over `[0, n)`: the runs are
consecutive with no gap and no overlap, the first starts at 0 and the last
stops at `n`, and every run is well-ordered. -/
def tilesExactly (secs : List LayoutSection) (n : Nat) : Prop :=
  chainFrom 0 secs n ∧ ∀ s ∈ secs, s.byte_range.start ≤ s.byte_range.stop

/-- Well-formedness of the spans of a `RegexError` relative to the pattern
length.  Modelled from the spec: a parse error's primary and auxiliary spans
lie within the pattern (§3, §4.7), and when both are present they are
disjoint, the one ordered first by `Ord` stopping before the other starts
(§4.7 orders them by start, min first). -/
def errSpansWf (len : Nat) : RegexError → Prop
  | .compile => True
  | .parse e none => e.start ≤ e.stop ∧ e.stop ≤ len
  | .parse e (some a) =>
    let mn := spanMin e a
    let mx := spanMax e a
    mn.start ≤ mn.stop ∧ mn.stop ≤ mx.start ∧ mx.start ≤ mx.stop ∧ mx.stop ≤ len

instance (len : Nat) (e : RegexError) : Decidable (errSpansWf len e) := by
  unfold errSpansWf
  cases e with
  | compile => exact inferInstanceAs (Decidable True)
  | parse e a => cases a <;> exact inferInstanceAs (Decidable (_ ∧ _))

/-- A character that can be part of a `$name` group reference in a
replacement template (alphanumeric or underscore). -/
def isNameChar (c : Char) : Bool := c.isAlphanum || c = '_'

theorem dropWhile_length_le {α : Type} (p : α → Bool) (l : List α) :
    (l.dropWhile p).length ≤ l.length := by
  induction l with
  | nil => simp [List.dropWhile]
  | cons a l ih =>
    by_cases h : p a = true
    · rw [List.dropWhile_cons_of_pos h]; exact Nat.le_succ_of_le ih
    · rw [List.dropWhile_cons_of_neg (by simp_all)]

/-- Modelled from the spec: the matcher's template expansion at an *empty*
match (§4.9 delegates to the regex library's standard replacement
semantics).  A group reference — `$` followed by a name — expands to the
empty string, `$$` is a literal dollar, every other character is literal. -/
def emptyExpand : List Char → List Char
  | [] => []
  | '$' :: '$' :: rest => '$' :: emptyExpand rest
  | '$' :: rest => emptyExpand (rest.dropWhile isNameChar)
  | c :: rest => c :: emptyExpand rest
termination_by s => s.length
decreasing_by
  all_goals simp_wf
  all_goals first
    | omega
    | (have hdw := dropWhile_length_le isNameChar rest; omega)

/-- Modelled from the spec: `replace_all` for the *empty* pattern.  §4.1 — an
empty pattern matches the empty string at every position — so the template's
empty-match expansion is inserted before every character and at the end. -/
def emptyPatternReplaceAll (text template : List Char) : List Char :=
  let e := emptyExpand template
  e ++ (text.map (fun c => c :: e)).flatten

/-- Modelled from the spec: the matcher the regex adapter returns for the
empty pattern (§4.1): it matches the empty string at every character
position, each match having only group 0 with an empty range, and
`replace_all` follows `emptyPatternReplaceAll`. -/
def emptyMatcher : Matcher :=
  { pattern := []
    captures := fun text =>
      (List.range (text.length + 1)).map
        (fun k => [some ⟨utf8Len (text.take k), utf8Len (text.take k)⟩])
    replaceAll := emptyPatternReplaceAll }

/-- A byte offset that falls on a UTF-8 character boundary of `s`. -/
def IsCharBoundary (s : List Char) (n : Nat) : Prop :=
  ∃ k, n = utf8Len (s.take k)

/-- Modelled from the spec: the regex adapter's guarantee on a byte span of
an AST node (§3): it lies within the pattern's byte length, is well ordered
and aligns on UTF-8 character boundaries. -/
def SpanWf (s : List Char) (r : NatRange) : Prop :=
  r.start ≤ r.stop ∧ r.stop ≤ utf8Len s ∧
    IsCharBoundary s r.start ∧ IsCharBoundary s r.stop

/-- Modelled from the spec: the adapter's guarantee quantified over every
group node of the AST it returned for the pattern (§3). -/
def AstWf (s : List Char) (ast : Ast) : Prop :=
  ∀ r ∈ astGroupSpans ast, SpanWf s r

theorem setRangeGo_length (v start stop : Nat) :
    ∀ (i : Nat) (m : List Nat), (setRangeGo v start stop i m).length = m.length := by
  intro i m
  induction m generalizing i with
  | nil => rfl
  | cons x xs ih => simp [setRangeGo, ih]

theorem setRange_length (m : List Nat) (r : NatRange) (v : Nat) :
    (setRange m r v).length = m.length :=
  setRangeGo_length ..

theorem setRangeGo_getD (v start stop : Nat) :
    ∀ (m : List Nat) (i b : Nat), b < m.length →
      (setRangeGo v start stop i m).getD b 0 =
        if start ≤ i + b ∧ i + b < stop then v else m.getD b 0 := by
  intro m
  induction m with
  | nil => intro i b hb; simp at hb
  | cons x xs ih =>
    intro i b hb
    cases b with
    | zero => simp [setRangeGo]
    | succ b' =>
      have hb' : b' < xs.length := by simp at hb; omega
      have heq : i + 1 + b' = i + (b' + 1) := by omega
      simp only [setRangeGo, List.getD_cons_succ]
      rw [ih (i + 1) b' hb', heq]

theorem setRange_getD (m : List Nat) (r : NatRange) (v b : Nat) (hb : b < m.length) :
    (setRange m r v).getD b 0 = if r.holds b then v else m.getD b 0 := by
  have := setRangeGo_getD v r.start r.stop m 0 b hb
  simpa [setRange, NatRange.holds] using this

theorem fillOpt_length :
    ∀ (rs : List (Option NatRange)) (m : List Nat) (idx : Nat) (m' : List Nat),
      fillOpt m rs idx = some m' → m'.length = m.length := by
  intro rs
  induction rs with
  | nil => intro m idx m' h; simp [fillOpt] at h; simp [h]
  | cons o rest ih =>
    intro m idx m' h
    cases o with
    | none => exact ih m (idx + 1) m' h
    | some r =>
      simp only [fillOpt, fillChecked] at h
      split at h
      · rw [Option.some_bind] at h
        have := ih _ (idx + 1) m' h
        rw [this, setRange_length]
      · simp at h

theorem fillOpt_getD :
    ∀ (rs : List (Option NatRange)) (m : List Nat) (idx : Nat) (m' : List Nat),
      fillOpt m rs idx = some m' → ∀ b, b < m.length →
        m'.getD b 0 = lastWriter b rs idx (m.getD b 0) := by
  intro rs
  induction rs with
  | nil => intro m idx m' h b _; simp [fillOpt] at h; simp [h, lastWriter]
  | cons o rest ih =>
    intro m idx m' h b hb
    cases o with
    | none => exact ih m (idx + 1) m' h b hb
    | some r =>
      simp only [fillOpt, fillChecked] at h
      split at h
      · rw [Option.some_bind] at h
        have hlen : b < (setRange m r (idx + 1)).length := by rw [setRange_length]; exact hb
        have := ih _ (idx + 1) m' h b hlen
        rw [this, setRange_getD m r (idx + 1) b hb]
        simp [lastWriter]
      · simp at h

theorem lastWriter_no_cover (b : Nat) :
    ∀ (rs : List (Option NatRange)) (idx cur : Nat),
      (∀ j r, rs.getD j none = some r → ¬ r.holds b) →
      lastWriter b rs idx cur = cur := by
  intro rs
  induction rs with
  | nil => intro idx cur _; rfl
  | cons o rest ih =>
    intro idx cur h
    cases o with
    | none =>
      exact ih (idx + 1) cur (fun j r hj => h (j + 1) r (by simpa using hj))
    | some r =>
      have h0 : ¬ r.holds b := h 0 r (by simp)
      simp only [lastWriter, if_neg h0]
      exact ih (idx + 1) cur (fun j r' hj => h (j + 1) r' (by simpa using hj))

theorem lastWriter_last_cover (b : Nat) :
    ∀ (rs : List (Option NatRange)) (idx cur j : Nat) (r : NatRange),
      rs.getD j none = some r → r.holds b →
      (∀ k, j < k → ∀ r', rs.getD k none = some r' → ¬ r'.holds b) →
      lastWriter b rs idx cur = idx + j + 1 := by
  intro rs
  induction rs with
  | nil => intro idx cur j r hj _ _; simp [List.getD] at hj
  | cons o rest ih =>
    intro idx cur j r hj hb hafter
    cases j with
    | zero =>
      rw [List.getD_cons_zero] at hj
      subst hj
      simp only [lastWriter, if_pos hb]
      rw [lastWriter_no_cover b rest (idx + 1) (idx + 1)
        (fun j' r' hj' => hafter (j' + 1) (Nat.succ_pos j') r' (by simpa using hj'))]
    | succ j' =>
      rw [List.getD_cons_succ] at hj
      have hafter' : ∀ k, j' < k → ∀ r', rest.getD k none = some r' → ¬ r'.holds b :=
        fun k hk r' hk' => hafter (k + 1) (by omega) r' (by simpa using hk')
      cases o with
      | none =>
        have := ih (idx + 1) cur j' r hj hb hafter'
        simp only [lastWriter, this]; omega
      | some r0 =>
        have := ih (idx + 1) (if r0.holds b then idx + 1 else cur) j' r hj hb hafter'
        simp only [lastWriter, this]; omega

theorem drop_cons_eq {α : Type} (d : α) :
    ∀ (j : Nat) (xs : List α) (a : α) (rest : List α), xs.drop j = a :: rest →
      xs.getD j d = a ∧ rest = xs.drop (j + 1) := by
  intro j
  induction j with
  | zero =>
    intro xs a rest h
    simp only [List.drop_zero] at h
    subst h
    exact ⟨rfl, rfl⟩
  | succ j ih =>
    intro xs a rest h
    cases xs with
    | nil => simp at h
    | cons x xs' =>
      have := ih xs' a rest (by simpa using h)
      exact ⟨this.1, this.2⟩

theorem drop_cons_lt {α : Type} :
    ∀ (j : Nat) (xs : List α) (a : α) (rest : List α), xs.drop j = a :: rest →
      j < xs.length := by
  intro j xs a rest h
  have : (xs.drop j).length = xs.length - j := by simp
  rw [h] at this
  simp at this
  omega

theorem zip_tail_getD :
    ∀ (m : List Nat) (j : Nat), j + 1 < m.length →
      (m.zip m.tail).getD j (0, 0) = (m.getD j 0, m.getD (j + 1) 0) := by
  intro m
  induction m with
  | nil => intro j h; simp at h
  | cons x xs ih =>
    intro j h
    cases xs with
    | nil => simp at h
    | cons y ys =>
      cases j with
      | zero => simp [List.zip]
      | succ j' =>
        have h' : j' + 1 < (y :: ys).length := by simp at h ⊢; omega
        have := ih j' h'
        simpa using this

theorem zip_tail_drop_cons (m : List Nat) (j : Nat) (l r : Nat)
    (rest : List (Nat × Nat)) (h : (m.zip m.tail).drop j = (l, r) :: rest) :
    l = m.getD j 0 ∧ r = m.getD (j + 1) 0 ∧ rest = (m.zip m.tail).drop (j + 1) := by
  have hlt : j < (m.zip m.tail).length := drop_cons_lt j _ _ _ h
  have hzl : (m.zip m.tail).length ≤ m.tail.length := by
    rw [List.length_zip]; exact min_le_right _ _
  have htl : m.tail.length = m.length - 1 := by simp
  have hj1 : j + 1 < m.length := by omega
  have hd := drop_cons_eq (0, 0) j (m.zip m.tail) (l, r) rest h
  rw [zip_tail_getD m j hj1] at hd
  have hp := Prod.ext_iff.mp hd.1
  exact ⟨hp.1.symm, hp.2.symm, hd.2⟩

theorem rleAux_chain (C : Nat → TextFormat) (marker : List Nat) :
    ∀ (pairs : List (Nat × Nat)) (head len : Nat), head ≤ len →
      chainFrom head (rleAux C marker head len pairs) (len + pairs.length) ∧
      ∀ s ∈ rleAux C marker head len pairs,
        s.byte_range.start ≤ s.byte_range.stop := by
  intro pairs
  induction pairs with
  | nil =>
    intro head len h
    refine ⟨⟨rfl, rfl⟩, ?_⟩
    intro s hs
    simp only [rleAux, List.mem_singleton] at hs
    subst hs
    exact h
  | cons p rest ih =>
    intro head len h
    obtain ⟨l, r⟩ := p
    have harith : len + ((l, r) :: rest).length = len + 1 + rest.length := by
      simp; omega
    by_cases hlr : l = r
    · have := ih head (len + 1) (Nat.le_succ_of_le h)
      simp only [rleAux, if_pos hlr]
      exact ⟨harith ▸ this.1, this.2⟩
    · have := ih len (len + 1) (Nat.le_succ len)
      simp only [rleAux, if_neg hlr]
      constructor
      · exact ⟨rfl, harith ▸ this.1⟩
      · intro s hs
        rcases List.mem_cons.mp hs with hs | hs
        · subst hs; exact h
        · exact this.2 s hs

theorem rleSections_tiles (C : Nat → TextFormat) (marker : List Nat)
    (h : marker ≠ []) : tilesExactly (rleSections C marker) marker.length := by
  obtain ⟨x, xs, rfl⟩ : ∃ x xs, marker = x :: xs := by
    cases marker with
    | nil => exact absurd rfl h
    | cons x xs => exact ⟨x, xs, rfl⟩
  have hc := rleAux_chain C (x :: xs) ((x :: xs).zip xs) 0 1 (Nat.zero_le 1)
  have hlen : (1 : Nat) + ((x :: xs).zip xs).length = (x :: xs).length := by
    simp
    omega
  exact ⟨hlen ▸ hc.1, hc.2⟩

theorem rleAux_format (C : Nat → TextFormat) (marker : List Nat) :
    ∀ (pairs : List (Nat × Nat)) (head len : Nat),
      head < len →
      pairs = (marker.zip marker.tail).drop (len - 1) →
      (∀ b, head ≤ b → b < len → marker.getD b 0 = marker.getD head 0) →
      ∀ s ∈ rleAux C marker head len pairs,
        ∀ b, s.byte_range.start ≤ b → b < s.byte_range.stop →
          s.format = C (marker.getD b 0) := by
  intro pairs
  induction pairs with
  | nil =>
    intro head len hhl _ hconst s hs b hb1 hb2
    simp only [rleAux, List.mem_singleton] at hs
    subst hs
    rw [hconst b hb1 hb2]
  | cons p rest ih =>
    intro head len hhl hpairs hconst s hs b hb1 hb2
    obtain ⟨l, r⟩ := p
    have hz := zip_tail_drop_cons marker (len - 1) l r rest hpairs.symm
    have hlen1 : len - 1 + 1 = len := by omega
    rw [hlen1] at hz
    by_cases hlr : l = r
    · simp only [rleAux, if_pos hlr] at hs
      refine ih head (len + 1) (by omega) ?_ ?_ s hs b hb1 hb2
      · rw [hz.2.2, Nat.add_sub_cancel]
      · intro b' hb1' hb2'
        by_cases hblt : b' < len
        · exact hconst b' hb1' hblt
        · have hbeq : b' = len := by omega
          rw [hbeq, ← hz.2.1, ← hlr, hz.1]
          exact hconst (len - 1) (by omega) (by omega)
    · simp only [rleAux, if_neg hlr] at hs
      rcases List.mem_cons.mp hs with hs | hs
      · subst hs
        show C l = C (marker.getD b 0)
        rw [hconst b hb1 hb2, hz.1]
        rw [hconst (len - 1) (by omega) (by omega)]
      · refine ih len (len + 1) (by omega) ?_ ?_ s hs b hb1 hb2
        · rw [hz.2.2, Nat.add_sub_cancel]
        · intro b' hb1' hb2'
          have hb' : b' = len := by omega
          rw [hb']

theorem rleSections_format (C : Nat → TextFormat) (marker : List Nat)
    (h : marker ≠ []) :
    ∀ s ∈ rleSections C marker, ∀ b, s.byte_range.start ≤ b →
      b < s.byte_range.stop → s.format = C (marker.getD b 0) := by
  obtain ⟨x, xs, rfl⟩ : ∃ x xs, marker = x :: xs := by
    cases marker with
    | nil => exact absurd rfl h
    | cons x xs => exact ⟨x, xs, rfl⟩
  have := rleAux_format C (x :: xs) ((x :: xs).zip xs) 0 1 Nat.zero_lt_one
    (by simp) (by intro b h1 h2; have hb0 : b = 0 := (by omega); subst hb0; rfl)
  intro s hs
  exact this s hs

theorem str_glyph_count_filter (s : List Char) :
    str_glyph_count s = (s.filter (fun c => c ≠ '\n')).length := by
  induction s with
  | nil => rfl
  | cons c cs ih =>
    have hle : (cs.filter (fun c => c = '\n')).length ≤ cs.length :=
      List.length_filter_le _ _
    by_cases hc : c = '\n'
    · simp [str_glyph_count, List.filter_cons, hc] at ih hle ⊢
      omega
    · simp [str_glyph_count, List.filter_cons, hc] at ih hle ⊢
      omega

theorem takeBytes_zero (s : List Char) : takeBytes s 0 = some [] := by
  cases s <;> rfl

theorem dropBytes_zero (s : List Char) : dropBytes s 0 = some s := by
  cases s <;> rfl

theorem takeBytes_cons_ge (c : Char) (cs : List Char) (n : Nat)
    (h : charBytes c ≤ n) (hn : 0 < n) :
    takeBytes (c :: cs) n = (takeBytes cs (n - charBytes c)).map (c :: ·) := by
  cases n with
  | zero => omega
  | succ m => simp only [takeBytes, if_pos h]

theorem dropBytes_cons_ge (c : Char) (cs : List Char) (n : Nat)
    (h : charBytes c ≤ n) (hn : 0 < n) :
    dropBytes (c :: cs) n = dropBytes cs (n - charBytes c) := by
  cases n with
  | zero => omega
  | succ m => simp only [dropBytes, if_pos h]

theorem takeBytes_append (mid post : List Char) :
    takeBytes (mid ++ post) (utf8Len mid) = some mid := by
  induction mid with
  | nil => exact takeBytes_zero post
  | cons c cs ih =>
    have hc := charBytes_pos c
    have hlen : utf8Len (c :: cs) = charBytes c + utf8Len cs := rfl
    rw [List.cons_append, hlen,
      takeBytes_cons_ge c (cs ++ post) _ (by omega) (by omega)]
    have h2 : charBytes c + utf8Len cs - charBytes c = utf8Len cs := by omega
    rw [h2, ih]
    rfl

theorem dropBytes_append (pre rest : List Char) :
    dropBytes (pre ++ rest) (utf8Len pre) = some rest := by
  induction pre with
  | nil => exact dropBytes_zero rest
  | cons c cs ih =>
    have hc := charBytes_pos c
    have hlen : utf8Len (c :: cs) = charBytes c + utf8Len cs := rfl
    rw [List.cons_append, hlen,
      dropBytes_cons_ge c (cs ++ rest) _ (by omega) (by omega)]
    have h2 : charBytes c + utf8Len cs - charBytes c = utf8Len cs := by omega
    rw [h2]
    exact ih

theorem strGet_whole_prefix (pre rest : List Char) :
    strGet (pre ++ rest) ⟨0, utf8Len pre⟩ = some pre := by
  unfold strGet
  rw [if_pos (Nat.zero_le _)]
  simp only [dropBytes_zero, Option.some_bind, Nat.sub_zero]
  exact takeBytes_append pre rest

theorem strGet_split (pre mid post : List Char) :
    strGet (pre ++ mid ++ post) ⟨utf8Len pre, utf8Len pre + utf8Len mid⟩ =
      some mid := by
  unfold strGet
  rw [if_pos (Nat.le_add_right ..)]
  rw [List.append_assoc, dropBytes_append pre (mid ++ post), Option.some_bind]
  have h2 : utf8Len pre + utf8Len mid - utf8Len pre = utf8Len mid := by omega
  rw [h2]
  exact takeBytes_append mid post

theorem convert_of_split (pre mid post : List Char) :
    convert_byte_range_to_char_range ⟨utf8Len pre, utf8Len pre + utf8Len mid⟩
        (pre ++ mid ++ post) =
      some ⟨str_glyph_count pre, str_glyph_count pre + str_glyph_count mid⟩ := by
  unfold convert_byte_range_to_char_range
  have h1 : strGet (pre ++ mid ++ post) ⟨0, utf8Len pre⟩ = some pre := by
    rw [List.append_assoc]
    exact strGet_whole_prefix pre (mid ++ post)
  rw [show (⟨0, (⟨utf8Len pre, utf8Len pre + utf8Len mid⟩ : NatRange).start⟩ :
      NatRange) = ⟨0, utf8Len pre⟩ from rfl, h1, strGet_split pre mid post]

theorem utf8Len_take_lt {s : List Char} {j k : Nat} (hjk : j < k)
    (hk : k ≤ s.length) : utf8Len (s.take j) < utf8Len (s.take k) := by
  have hsplit : s.take k = (s.take k).take j ++ (s.take k).drop j :=
    (List.take_append_drop ..).symm
  have h1 : (s.take k).take j = s.take j := by
    rw [List.take_take]
    congr 1
    omega
  have h2 : (s.take k).drop j ≠ [] := by
    have hl : ((s.take k).drop j).length = min k s.length - j := by simp
    intro hnil
    rw [hnil] at hl
    simp at hl
    omega
  have h3 : utf8Len (s.take k) = utf8Len (s.take j) + utf8Len ((s.take k).drop j) := by
    conv_lhs => rw [hsplit]
    rw [utf8Len_append, h1]
  have := utf8Len_pos h2
  omega

theorem isCharBoundary_bounded {s : List Char} {n : Nat} (h : IsCharBoundary s n) :
    ∃ k, k ≤ s.length ∧ n = utf8Len (s.take k) := by
  obtain ⟨k, hk⟩ := h
  by_cases hkl : k ≤ s.length
  · exact ⟨k, hkl, hk⟩
  · refine ⟨s.length, le_refl _, ?_⟩
    rw [List.take_length]
    rw [List.take_of_length_le (by omega)] at hk
    exact hk

theorem spanWf_split {s : List Char} {r : NatRange} (h : SpanWf s r) :
    ∃ pre mid post, s = pre ++ mid ++ post ∧ utf8Len pre = r.start ∧
      utf8Len pre + utf8Len mid = r.stop := by
  obtain ⟨hord, hstop, hb1, hb2⟩ := h
  obtain ⟨k₁, hk₁l, hk₁⟩ := isCharBoundary_bounded hb1
  obtain ⟨k₂, hk₂l, hk₂⟩ := isCharBoundary_bounded hb2
  have hkk : k₁ ≤ k₂ := by
    by_contra hcon
    have := utf8Len_take_lt (show k₂ < k₁ by omega) hk₁l
    omega
  refine ⟨s.take k₁, (s.take k₂).drop k₁, s.drop k₂, ?_, hk₁.symm, ?_⟩
  · have e1 : (s.take k₂).take k₁ = s.take k₁ := by
      rw [List.take_take]
      congr 1
      omega
    rw [← e1, List.take_append_drop, List.take_append_drop]
  · rw [← utf8Len_append]
    have e1 : (s.take k₂).take k₁ = s.take k₁ := by
      rw [List.take_take]
      congr 1
      omega
    rw [← e1, List.take_append_drop]
    exact hk₂.symm

theorem convert_of_spanWf {s : List Char} {r : NatRange} (h : SpanWf s r) :
    (convert_byte_range_to_char_range r s).isSome := by
  obtain ⟨pre, mid, post, hsplit, hstart, hstop⟩ := spanWf_split h
  have hr : r = ⟨utf8Len pre, utf8Len pre + utf8Len mid⟩ := by
    cases r
    simp_all
  rw [hr, hsplit, convert_of_split]
  rfl

mutual

theorem walkAst_append (depth : Nat) (ast : Ast) (vec out : List (Nat × NatRange))
    (h : walkAst depth ast vec = some out) : ∃ rest, out = vec ++ rest := by
  cases ast with
  | repetition a =>
    simp only [walkAst] at h
    exact walkAst_append (depth + 1) a vec out h
  | group cap sp a =>
    cases cap with
    | some i =>
      simp only [walkAst] at h
      split at h
      · obtain ⟨rest, hrest⟩ := walkAst_append (depth + 1) a (vec ++ [(depth, sp)]) out h
        exact ⟨(depth, sp) :: rest, by simp [hrest]⟩
      · exact absurd h (by simp)
    | none =>
      simp only [walkAst] at h
      exact ⟨[], by simp [← Option.some_inj.mp h]⟩
  | alternation asts =>
    simp only [walkAst] at h
    exact walkAstList_append (depth + 1) asts vec out h
  | concat asts =>
    simp only [walkAst] at h
    exact walkAstList_append (depth + 1) asts vec out h
  | atom =>
    simp only [walkAst] at h
    exact ⟨[], by simp [← Option.some_inj.mp h]⟩

theorem walkAstList_append (depth : Nat) (asts : AstList)
    (vec out : List (Nat × NatRange))
    (h : walkAstList depth asts vec = some out) : ∃ rest, out = vec ++ rest := by
  cases asts with
  | nil =>
    simp only [walkAstList] at h
    exact ⟨[], by simp [← Option.some_inj.mp h]⟩
  | cons a rest' =>
    simp only [walkAstList] at h
    cases ho : walkAst depth a vec with
    | none => rw [ho] at h; exact absurd h (by simp)
    | some mid =>
      rw [ho, Option.some_bind] at h
      obtain ⟨r1, hr1⟩ := walkAst_append depth a vec mid ho
      obtain ⟨r2, hr2⟩ := walkAstList_append depth rest' mid out h
      exact ⟨r1 ++ r2, by simp [hr2, hr1]⟩

end

mutual

theorem walkAst_spans (depth : Nat) (ast : Ast) (vec out : List (Nat × NatRange))
    (h : walkAst depth ast vec = some out) :
    ∀ p ∈ out, p ∈ vec ∨ p.2 ∈ astGroupSpans ast := by
  cases ast with
  | repetition a =>
    simp only [walkAst] at h
    simpa [astGroupSpans] using walkAst_spans (depth + 1) a vec out h
  | group cap sp a =>
    cases cap with
    | some i =>
      simp only [walkAst] at h
      split at h
      · intro p hp
        rcases walkAst_spans (depth + 1) a (vec ++ [(depth, sp)]) out h p hp with hv | hg
        · rcases List.mem_append.mp hv with hv | hv
          · exact Or.inl hv
          · right
            simp only [List.mem_singleton] at hv
            subst hv
            simp [astGroupSpans]
        · right
          simp [astGroupSpans, hg]
      · exact absurd h (by simp)
    | none =>
      simp only [walkAst] at h
      intro p hp
      exact Or.inl (Option.some_inj.mp h ▸ hp)
  | alternation asts =>
    simp only [walkAst] at h
    simpa [astGroupSpans] using walkAstList_spans (depth + 1) asts vec out h
  | concat asts =>
    simp only [walkAst] at h
    simpa [astGroupSpans] using walkAstList_spans (depth + 1) asts vec out h
  | atom =>
    simp only [walkAst] at h
    intro p hp
    exact Or.inl (Option.some_inj.mp h ▸ hp)

theorem walkAstList_spans (depth : Nat) (asts : AstList)
    (vec out : List (Nat × NatRange))
    (h : walkAstList depth asts vec = some out) :
    ∀ p ∈ out, p ∈ vec ∨ p.2 ∈ astGroupSpansList asts := by
  cases asts with
  | nil =>
    simp only [walkAstList] at h
    intro p hp
    exact Or.inl (Option.some_inj.mp h ▸ hp)
  | cons a rest' =>
    simp only [walkAstList] at h
    cases ho : walkAst depth a vec with
    | none => rw [ho] at h; exact absurd h (by simp)
    | some mid =>
      rw [ho, Option.some_bind] at h
      intro p hp
      rcases walkAstList_spans depth rest' mid out h p hp with hv | hg
      · rcases walkAst_spans depth a vec mid ho p hv with hv' | hg'
        · exact Or.inl hv'
        · right
          simp [astGroupSpansList, hg']
      · right
        simp [astGroupSpansList, hg]

end

theorem walkAst_group_first (depth i : Nat) (sp : NatRange) (child : Ast)
    (vec out : List (Nat × NatRange))
    (h : walkAst depth (.group (some i) sp child) vec = some out) :
    ∃ rest, out = vec ++ (depth, sp) :: rest := by
  simp only [walkAst] at h
  split at h
  · obtain ⟨rest, hr⟩ := walkAst_append _ _ _ _ h
    exact ⟨rest, by simpa using hr⟩
  · exact absurd h (by simp)

theorem regex_parse_ast_empty (ast : Ast) (prev : Option RegexLayout) :
    regex_parse_ast [] ast prev = some {} := rfl

theorem regex_parse_ast_eq {regex : List Char} {ast : Ast}
    {prev : Option RegexLayout} {L : RegexLayout}
    (h : regex_parse_ast regex ast prev = some L) (hne : regex ≠ []) :
    ∃ ranges marker chars,
      ast_find_capture_groups ast = some ranges ∧
      fillOpt (List.replicate (utf8Len regex) 0)
        (ranges.map (fun dr => some dr.2)) 0 = some marker ∧
      L = { job := { text := regex
                     sections := rleSections
                       (fun i => TextFormat.background'
                         ((Color32.transparent ::
                           paletteCycle ranges.length).getD i Color32.transparent))
                       marker }
            capture_group_chars := chars
            capture_group_colors :=
              Color32.transparent :: paletteCycle ranges.length } := by
  unfold regex_parse_ast at h
  rw [if_neg (by simpa using hne)] at h
  cases hr : ast_find_capture_groups ast with
  | none => rw [hr] at h; simp at h
  | some ranges =>
    rw [hr] at h
    simp only [Option.pure_def, Option.bind_eq_bind, Option.some_bind] at h
    rw [Option.bind_eq_some] at h
    obtain ⟨chars, hm, h⟩ := h
    rw [Option.bind_eq_some] at h
    obtain ⟨marker, hf, h⟩ := h
    exact ⟨ranges, marker, chars, rfl, hf, (Option.some_inj.mp h).symm⟩

theorem getD_map_range {α : Type} (f : Nat → α) (n j : Nat) (d : α) (hj : j < n) :
    ((List.range n).map f).getD j d = f j := by
  have h1 : j < ((List.range n).map f).length := by simp [hj]
  rw [List.getD_eq_getElem _ _ h1]
  simp

theorem paletteCycle_getD {n j : Nat} (hj : j < n) :
    (paletteCycle n).getD j Color32.transparent =
      BACKGROUND_COLORS.getD (j % 3) Color32.transparent := by
  unfold paletteCycle
  rw [getD_map_range _ _ _ _ hj]
  rfl

theorem regex_parse_ast_color {regex : List Char} {ast : Ast}
    {prev : Option RegexLayout} {L : RegexLayout}
    (h : regex_parse_ast regex ast prev = some L) (i : Nat) (h1 : 1 ≤ i)
    (h2 : i < L.capture_group_colors.length) :
    L.capture_group_colors.getD i Color32.transparent =
      BACKGROUND_COLORS.getD ((i - 1) % 3) Color32.transparent := by
  by_cases hne : regex = []
  · subst hne
    rw [regex_parse_ast_empty ast prev] at h
    rw [← Option.some_inj.mp h] at h2
    simp at h2
  · obtain ⟨ranges, marker, chars, _, _, hL⟩ := regex_parse_ast_eq h hne
    subst hL
    simp only at h2 ⊢
    have hi : i - 1 < ranges.length := by
      simp [paletteCycle] at h2
      omega
    obtain ⟨j, rfl⟩ : ∃ j, i = j + 1 := ⟨i - 1, by omega⟩
    rw [List.getD_cons_succ, paletteCycle_getD (by omega : j < ranges.length)]
    rfl

/-- C3 (code bug): the walker of `ast_find_capture_groups_recurse` does not
descend into non-capturing groups — their match arm does nothing when
`capture_index()` is `None`.  On the AST of the pattern `(?:(a))` the
capturing group 1 nested inside the non-capturing group is therefore not
yielded: the walker returns the empty list, contradicting the spec's
transparent descent. -/
theorem c3_transparent_descent :
    ast_find_capture_groups
      (Ast.group none ⟨0, 7⟩ (Ast.group (some 1) ⟨3, 6⟩ Ast.atom)) = some [] := by
  decide

/-- C4 (code bug): on the AST of `(?:(a))(b)` — a parseable pattern with two
capture groups, indices 1 and 2 — the walker aborts via its consecutiveness
assertion (modelled as `none`): it skipped group 1 inside the non-capturing
group, so on reaching group 2 `vec.len() + 1 = 1 ≠ 2`.  It does not yield
descriptors with indices 1..N as the claim states. -/
theorem c4_group_index_consecutiveness :
    ast_find_capture_groups
      (Ast.concat (.cons
        (Ast.group none ⟨0, 7⟩ (Ast.group (some 1) ⟨3, 6⟩ Ast.atom))
        (.cons (Ast.group (some 2) ⟨7, 10⟩ Ast.atom) .nil))) = none := by
  decide

/-- C5: glyph-count law and byte-to-glyph conversion.  For every string,
`str_glyph_count s = char_count s − newline_count s` (and equivalently the
number of non-newline chars); and for every text and byte range whose
endpoints fall on UTF-8 character boundaries (expressed as a decomposition
`text = pre ++ mid ++ post` at the two endpoints), the offset mapper returns
`[start, start + length)` where `start` is the glyph count of the prefix and
`length` the glyph count of the range's substring. -/
theorem c5_glyph_count_and_conversion :
    (∀ s : List Char, str_glyph_count s =
        s.length - (s.filter (fun c => c = '\n')).length) ∧
    (∀ s : List Char, str_glyph_count s =
        (s.filter (fun c => c ≠ '\n')).length) ∧
    (∀ (text pre mid post : List Char) (r : NatRange),
      text = pre ++ mid ++ post → r.start = utf8Len pre →
      r.stop = utf8Len pre + utf8Len mid →
      convert_byte_range_to_char_range r text =
        some ⟨str_glyph_count pre, str_glyph_count pre + str_glyph_count mid⟩) := by
  refine ⟨fun s => rfl, str_glyph_count_filter, ?_⟩
  intro text pre mid post r h1 h2 h3
  subst h1
  have hr : r = ⟨utf8Len pre, utf8Len pre + utf8Len mid⟩ := by
    cases r
    simp_all
  rw [hr]
  exact convert_of_split pre mid post

/-- Witness for C5 at a concrete input: the byte range `[1, 4)` of `a\nb\nc`
(the substring `\nb\n`) maps to the glyph range `[1, 2)`. -/
theorem c5_glyph_count_and_conversion_witness :
    convert_byte_range_to_char_range ⟨1, 4⟩ "a\nb\nc".toList = some ⟨1, 2⟩ :=
  c5_glyph_count_and_conversion.2.2 "a\nb\nc".toList "a".toList "\nb\n".toList
    "c".toList ⟨1, 4⟩ (by decide) (by decide) (by decide)

/-- C6: for a parse error with primary span `P` and no auxiliary span the
error decoration is exactly three runs — plain-red `[0, P.start)`,
highlighted `[P.start, P.stop)`, plain-red `[P.stop, len)` — and for a
compile error exactly one highlighted run covering the whole pattern; in
both cases the capture-group table and color list are empty. -/
theorem c6_error_decoration_structure (regex : List Char) (P : NatRange) :
    ((layout_regex_err regex (.parse P none)).job.sections =
        [errPlaintext ⟨0, P.start⟩, errHighlight P,
          errPlaintext ⟨P.stop, utf8Len regex⟩] ∧
      (layout_regex_err regex (.parse P none)).capture_group_chars = [] ∧
      (layout_regex_err regex (.parse P none)).capture_group_colors = []) ∧
    ((layout_regex_err regex .compile).job.sections =
        [errHighlight ⟨0, utf8Len regex⟩] ∧
      (layout_regex_err regex .compile).capture_group_chars = [] ∧
      (layout_regex_err regex .compile).capture_group_colors = []) :=
  ⟨⟨rfl, rfl, rfl⟩, ⟨rfl, rfl, rfl⟩⟩

/-- C7: color stability.  The color assignment of `regex_parse_ast` is the
pure palette cycle `BACKGROUND_COLORS[(i−1) mod 3]`, independent of the
pattern's spans, so whenever the previous regex decoration was itself
produced by `regex_parse_ast`, a group index `i` that exists in both the old
and the new decoration — in particular one whose byte span is unchanged —
keeps exactly its previous color. -/
theorem c7_color_stability (oldRegex newRegex : List Char) (oldAst newAst : Ast)
    (oldPrev : Option RegexLayout) (prevL newL : RegexLayout)
    (oldRs newRs : List (Nat × NatRange)) (i : Nat)
    (hold : regex_parse_ast oldRegex oldAst oldPrev = some prevL)
    (hnew : regex_parse_ast newRegex newAst (some prevL) = some newL)
    (holdR : ast_find_capture_groups oldAst = some oldRs)
    (hnewR : ast_find_capture_groups newAst = some newRs)
    (hspan : (oldRs.getD (i - 1) (0, ⟨0, 0⟩)).2 = (newRs.getD (i - 1) (0, ⟨0, 0⟩)).2)
    (h1 : 1 ≤ i) (h2 : i < prevL.capture_group_colors.length)
    (h3 : i < newL.capture_group_colors.length) :
    newL.capture_group_colors.getD i Color32.transparent =
      prevL.capture_group_colors.getD i Color32.transparent := by
  rw [regex_parse_ast_color hnew i h1 h3, regex_parse_ast_color hold i h1 h2]

/-- Witness for C7 at a concrete input: recomputing the decoration of `(a)`
with the previous decoration seeding the carry-over keeps group 1's color. -/
theorem c7_color_stability_witness :
    regex_parse_ast "(a)".toList (Ast.group (some 1) ⟨0, 3⟩ Ast.atom) none =
      some { job := { text := "(a)".toList
                      sections := [⟨⟨0, 3⟩, ⟨Color32.white, Color32.fromRgb 38 77 109⟩⟩] }
             capture_group_chars := [(0, ⟨0, 3⟩)]
             capture_group_colors := [Color32.transparent, Color32.fromRgb 38 77 109] } ∧
    ({ job := { text := "(a)".toList
                sections := [⟨⟨0, 3⟩, ⟨Color32.white, Color32.fromRgb 38 77 109⟩⟩] }
       capture_group_chars := [(0, ⟨0, 3⟩)]
       capture_group_colors :=
        [Color32.transparent, Color32.fromRgb 38 77 109] } :
          RegexLayout).capture_group_colors.getD 1 Color32.transparent =
      ({ job := { text := "(a)".toList
                  sections := [⟨⟨0, 3⟩, ⟨Color32.white, Color32.fromRgb 38 77 109⟩⟩] }
         capture_group_chars := [(0, ⟨0, 3⟩)]
         capture_group_colors :=
          [Color32.transparent, Color32.fromRgb 38 77 109] } :
            RegexLayout).capture_group_colors.getD 1 Color32.transparent :=
  ⟨by decide,
    c7_color_stability "(a)".toList "(a)".toList
      (Ast.group (some 1) ⟨0, 3⟩ Ast.atom) (Ast.group (some 1) ⟨0, 3⟩ Ast.atom)
      none _ _ [(0, ⟨0, 3⟩)] [(0, ⟨0, 3⟩)] 1
      (by decide) (by decide) (by decide) (by decide) (by decide)
      (by decide) (by decide) (by decide)⟩

theorem collectMatches_eq {text : List Char} {c : List (Option NatRange)}
    {cs : List (List (Option NatRange))} {m : List Nat}
    {res : List Nat × List (List (Option NatRange))}
    (h : collectMatches text m (c :: cs) = some res) :
    ∃ m' char_ranges rest,
      fillOpt m (c.drop 1) 0 = some m' ∧
      collectMatches text m' cs = some (res.1, rest) ∧
      res.2 = char_ranges :: rest := by
  unfold collectMatches at h
  simp only [Option.pure_def, Option.bind_eq_bind] at h
  rw [Option.bind_eq_some] at h
  obtain ⟨m', hfill, h⟩ := h
  rw [Option.bind_eq_some] at h
  obtain ⟨char_ranges, hconv, h⟩ := h
  rw [Option.bind_eq_some] at h
  obtain ⟨⟨mF, rest⟩, hrec, h⟩ := h
  have hpair := Option.some_inj.mp h
  have h1 : mF = res.1 := congrArg Prod.fst hpair
  have h2 : char_ranges :: rest = res.2 := congrArg Prod.snd hpair
  rw [h1] at hrec
  exact ⟨m', char_ranges, rest, hfill, hrec, h2.symm⟩

theorem collectMatches_marker_length :
    ∀ (cs : List (List (Option NatRange))) (text : List Char) (m : List Nat)
      (res : List Nat × List (List (Option NatRange))),
      collectMatches text m cs = some res → res.1.length = m.length := by
  intro cs
  induction cs with
  | nil =>
    intro text m res h
    unfold collectMatches at h
    rw [← Option.some_inj.mp h]
  | cons c cs' ih =>
    intro text m res h
    obtain ⟨m', char_ranges, rest, hfill, hrec, _⟩ := collectMatches_eq h
    have h1 := ih text m' (res.1, rest) hrec
    have h2 := fillOpt_length (c.drop 1) m 0 m' hfill
    simp at h1
    omega

theorem layout_matched_text_empty_text (m : Matcher) (colors : List Color32) :
    layout_matched_text [] m colors = some {} := rfl

theorem layout_matched_text_empty_pattern {text : List Char} (m : Matcher)
    (colors : List Color32) (htext : text ≠ []) (hpat : m.pattern = []) :
    layout_matched_text text m colors =
      some { job := layout_plain_text text, capture_group_chars := [] } := by
  unfold layout_matched_text
  rw [if_neg (by simpa using htext), if_pos (by simpa using hpat)]

theorem layout_matched_text_eq {text : List Char} {m : Matcher}
    {colors : List Color32} {ML : MatchedTextLayout}
    (h : layout_matched_text text m colors = some ML) (htext : text ≠ [])
    (hpat : m.pattern ≠ []) :
    ∃ marker cgc,
      collectMatches text (List.replicate (utf8Len text) 0) (m.captures text) =
        some (marker, cgc) ∧
      ML = { job := { text
                      sections := rleSections
                        (fun i => TextFormat.background'
                          (colors.getD i Color32.transparent)) marker }
             capture_group_chars := cgc } := by
  unfold layout_matched_text at h
  rw [if_neg (by simpa using htext), if_neg (by simpa using hpat)] at h
  simp only [Option.pure_def, Option.bind_eq_bind] at h
  rw [Option.bind_eq_some] at h
  obtain ⟨⟨marker, cgc⟩, hcm, h⟩ := h
  exact ⟨marker, cgc, hcm, (Option.some_inj.mp h).symm⟩

theorem layout_regex_err_tiles (regex : List Char) (err : RegexError)
    (hwf : errSpansWf (utf8Len regex) err) :
    tilesExactly (layout_regex_err regex err).job.sections (utf8Len regex) := by
  cases err with
  | compile =>
    refine ⟨⟨rfl, rfl⟩, ?_⟩
    intro s hs
    simp only [layout_regex_err, List.mem_singleton] at hs
    subst hs
    exact Nat.zero_le _
  | parse e a =>
    cases a with
    | none =>
      obtain ⟨h1, h2⟩ := hwf
      refine ⟨⟨rfl, rfl, rfl, rfl⟩, ?_⟩
      intro s hs
      simp only [layout_regex_err, List.mem_cons, List.mem_singleton,
        List.not_mem_nil, or_false] at hs
      rcases hs with rfl | rfl | rfl
      · exact Nat.zero_le _
      · exact h1
      · exact h2
    | some aSpan =>
      obtain ⟨h1, h2, h3, h4⟩ := hwf
      refine ⟨⟨rfl, rfl, rfl, rfl, rfl, rfl⟩, ?_⟩
      intro s hs
      simp only [layout_regex_err, List.mem_cons, List.mem_singleton,
        List.not_mem_nil, or_false] at hs
      rcases hs with rfl | rfl | rfl | rfl | rfl
      · exact Nat.zero_le _
      · exact h1
      · exact h2
      · exact h3
      · exact h4

theorem build_layout_sections_tiles {section_indexes : List Nat}
    {ranges : List NatRange} {colors : List Color32} {secs : List LayoutSection}
    (h : build_layout_sections section_indexes ranges colors = some secs)
    (hne : section_indexes ≠ []) : tilesExactly secs section_indexes.length := by
  unfold build_layout_sections at h
  rw [Option.map_eq_some'] at h
  obtain ⟨marker, hfill, hsecs⟩ := h
  have hlen := fillOpt_length _ _ _ _ hfill
  have hmne : marker ≠ [] := by
    intro hnil
    rw [hnil] at hlen
    simp at hlen
    exact hne (List.length_eq_zero.mp hlen.symm)
  have := rleSections_tiles
    (fun i => TextFormat.background' (colors.getD i Color32.transparent)) marker hmne
  rw [hsecs, hlen] at this
  exact this

theorem regex_parse_ast_tiles {regex : List Char} {ast : Ast}
    {prev : Option RegexLayout} {L : RegexLayout}
    (h : regex_parse_ast regex ast prev = some L) :
    tilesExactly L.job.sections (utf8Len L.job.text) := by
  by_cases hne : regex = []
  · subst hne
    rw [regex_parse_ast_empty ast prev] at h
    rw [← Option.some_inj.mp h]
    exact ⟨rfl, by intro s hs; simp at hs⟩
  · obtain ⟨ranges, marker, chars, _, hfill, hL⟩ := regex_parse_ast_eq h hne
    subst hL
    have hlen := fillOpt_length _ _ _ _ hfill
    simp only [List.length_replicate] at hlen
    have hmne : marker ≠ [] := by
      intro hnil
      rw [hnil] at hlen
      simp at hlen
      have hpos := utf8Len_pos hne
      omega
    have := rleSections_tiles
      (fun i => TextFormat.background'
        ((Color32.transparent :: paletteCycle ranges.length).getD i
          Color32.transparent)) marker hmne
    rw [hlen] at this
    exact this

theorem layout_matched_text_tiles {text : List Char} {m : Matcher}
    {colors : List Color32} {ML : MatchedTextLayout}
    (h : layout_matched_text text m colors = some ML) :
    tilesExactly ML.job.sections (utf8Len ML.job.text) := by
  by_cases htext : text = []
  · subst htext
    rw [layout_matched_text_empty_text m colors] at h
    rw [← Option.some_inj.mp h]
    exact ⟨rfl, by intro s hs; simp at hs⟩
  · by_cases hpat : m.pattern = []
    · rw [layout_matched_text_empty_pattern m colors htext hpat] at h
      rw [← Option.some_inj.mp h]
      refine ⟨⟨rfl, rfl⟩, ?_⟩
      intro s hs
      simp only [layout_plain_text, List.mem_singleton] at hs
      subst hs
      exact Nat.zero_le _
    · obtain ⟨marker, cgc, hcm, hML⟩ := layout_matched_text_eq h htext hpat
      subst hML
      have hlen := collectMatches_marker_length _ _ _ _ hcm
      simp only [List.length_replicate] at hlen
      have hmne : marker ≠ [] := by
        intro hnil
        rw [hnil] at hlen
        simp at hlen
        have hpos := utf8Len_pos htext
        omega
      have := rleSections_tiles
        (fun i => TextFormat.background' (colors.getD i Color32.transparent))
        marker hmne
      rw [hlen] at this
      exact this

/-- C2: tile completeness.  Every decoration produced — the regex decoration
of `regex_parse_ast`, the input decoration of `layout_matched_text`, the
error decoration of `layout_regex_err` (for library-well-formed error spans)
and the output of `build_layout_sections` — is an ordered list of format
runs that exactly covers `[0, len(text))`: consecutive runs chain from 0 to
the byte length with no gap and no overlap. -/
theorem c2_tile_completeness :
    (∀ (section_indexes : List Nat) (ranges : List NatRange)
        (colors : List Color32) (secs : List LayoutSection),
      build_layout_sections section_indexes ranges colors = some secs →
      section_indexes ≠ [] → tilesExactly secs section_indexes.length) ∧
    (∀ (regex : List Char) (ast : Ast) (prev : Option RegexLayout)
        (L : RegexLayout),
      regex_parse_ast regex ast prev = some L →
      tilesExactly L.job.sections (utf8Len L.job.text)) ∧
    (∀ (text : List Char) (m : Matcher) (colors : List Color32)
        (ML : MatchedTextLayout),
      layout_matched_text text m colors = some ML →
      tilesExactly ML.job.sections (utf8Len ML.job.text)) ∧
    (∀ (regex : List Char) (err : RegexError),
      errSpansWf (utf8Len regex) err →
      tilesExactly (layout_regex_err regex err).job.sections (utf8Len regex)) :=
  ⟨fun _ _ _ _ h hne => build_layout_sections_tiles h hne,
    fun _ _ _ _ h => regex_parse_ast_tiles h,
    fun _ _ _ _ h => layout_matched_text_tiles h,
    fun regex err hwf => layout_regex_err_tiles regex err hwf⟩

/-- Witness for C2 at concrete inputs: each of the four builders applied to a
small concrete input, with every hypothesis discharged by computation. -/
theorem c2_tile_completeness_witness :
    tilesExactly [(⟨⟨0, 1⟩, ⟨Color32.white, BG_RED⟩⟩ : LayoutSection),
      ⟨⟨1, 2⟩, ⟨Color32.white, Color32.transparent⟩⟩] 2 ∧
    tilesExactly [(⟨⟨0, 3⟩,
      ⟨Color32.white, Color32.fromRgb 38 77 109⟩⟩ : LayoutSection)]
      (utf8Len "(a)".toList) ∧
    tilesExactly (layout_plain_text "ab".toList).sections
      (utf8Len "ab".toList) ∧
    tilesExactly (layout_regex_err "ab[".toList (.parse ⟨2, 3⟩ none)).job.sections
      (utf8Len "ab[".toList) :=
  ⟨c2_tile_completeness.1 [0, 0] [⟨0, 1⟩] [Color32.transparent, BG_RED]
      [⟨⟨0, 1⟩, ⟨Color32.white, BG_RED⟩⟩,
        ⟨⟨1, 2⟩, ⟨Color32.white, Color32.transparent⟩⟩] (by decide) (by decide),
    c2_tile_completeness.2.1 "(a)".toList (Ast.group (some 1) ⟨0, 3⟩ Ast.atom)
      none
      { job := { text := "(a)".toList
                 sections :=
                  [⟨⟨0, 3⟩, ⟨Color32.white, Color32.fromRgb 38 77 109⟩⟩] }
        capture_group_chars := [(0, ⟨0, 3⟩)]
        capture_group_colors :=
          [Color32.transparent, Color32.fromRgb 38 77 109] } (by decide),
    c2_tile_completeness.2.2.1 "ab".toList emptyMatcher []
      { job := layout_plain_text "ab".toList
        capture_group_chars := [] } (by decide),
    c2_tile_completeness.2.2.2 "ab[".toList (.parse ⟨2, 3⟩ none) (by decide)⟩

/-- C9: error-state atomicity.  When regex compilation fails, the state
coordinator stores exactly the error (`LogicState::new` maps the failure
through); the result body leaves the previous replacement output untouched
whether or not an input changed; the connector painter emits no shapes; and
the regex editor shows only the error decoration. -/
theorem c9_error_state_atomicity (e : RegexError)
    (regex_text input_text replace_text result_text : List Char)
    (previous : Option LogicState) (changed : Bool) :
    logicStateNew (.error e) regex_text input_text previous = some (.error e) ∧
    resultBodyStep (.error e) input_text replace_text result_text changed =
      result_text ∧
    connectingLinesEmitsShapes (.error e) = false ∧
    regexEditorJob (.error e) regex_text = (layout_regex_err regex_text e).job := by
  refine ⟨rfl, ?_, rfl, rfl⟩
  unfold resultBodyStep
  cases changed <;> rfl

theorem foldl_max_le_acc : ∀ (l : List Nat) (acc : Nat), acc ≤ l.foldl Nat.max acc := by
  intro l
  induction l with
  | nil => intro acc; exact le_refl acc
  | cons x xs ih =>
    intro acc
    calc acc ≤ Nat.max acc x := Nat.le_max_left ..
      _ ≤ xs.foldl Nat.max (Nat.max acc x) := ih _

theorem foldl_max_of_mem : ∀ (l : List Nat) (x : Nat), x ∈ l →
    ∀ acc, x ≤ l.foldl Nat.max acc := by
  intro l
  induction l with
  | nil => intro x hx; simp at hx
  | cons y ys ih =>
    intro x hx acc
    rcases List.mem_cons.mp hx with rfl | hx
    · calc x ≤ Nat.max acc x := Nat.le_max_right ..
        _ ≤ ys.foldl Nat.max (Nat.max acc x) := foldl_max_le_acc ..
    · exact ih x hx _

theorem mapM_isSome {α β : Type} (f : α → Option β) :
    ∀ l : List α, (∀ a ∈ l, (f a).isSome) → (l.mapM f).isSome := by
  intro l
  induction l with
  | nil => intro _; rfl
  | cons a l ih =>
    intro h
    rw [List.mapM_cons]
    obtain ⟨b, hb⟩ := Option.isSome_iff_exists.mp (h a (by simp))
    obtain ⟨bs, hbs⟩ := Option.isSome_iff_exists.mp
      (ih (fun x hx => h x (by simp [hx])))
    simp only [hb, hbs, Option.pure_def, Option.bind_eq_bind, Option.some_bind]
    rfl

theorem fillOpt_isSome : ∀ (rs : List (Option NatRange)) (m : List Nat) (idx : Nat),
    (∀ r, some r ∈ rs → r.start ≤ r.stop ∧ r.stop ≤ m.length) →
    (fillOpt m rs idx).isSome := by
  intro rs
  induction rs with
  | nil => intro m idx _; simp [fillOpt]
  | cons o rest ih =>
    intro m idx h
    cases o with
    | none => exact ih m (idx + 1) (fun r hr => h r (by simp [hr]))
    | some r =>
      have hr := h r (by simp)
      simp only [fillOpt, fillChecked, if_pos hr]
      rw [Option.some_bind]
      refine ih (setRange m r (idx + 1)) (idx + 1) (fun r' hr' => ?_)
      have := h r' (by simp [hr'])
      rwa [setRange_length]

theorem fillOpt_bounds : ∀ (rs : List (Option NatRange)) (m : List Nat)
    (idx : Nat) (m' : List Nat), fillOpt m rs idx = some m' →
    ∀ r, some r ∈ rs → r.start ≤ r.stop ∧ r.stop ≤ m.length := by
  intro rs
  induction rs with
  | nil => intro m idx m' _ r hr; simp at hr
  | cons o rest ih =>
    intro m idx m' h r hr
    cases o with
    | none =>
      rcases List.mem_cons.mp hr with hcon | hr'
      · exact absurd hcon.symm (by simp)
      · exact ih m (idx + 1) m' h r hr'
    | some r0 =>
      simp only [fillOpt, fillChecked] at h
      by_cases hb : r0.start ≤ r0.stop ∧ r0.stop ≤ m.length
      · rw [if_pos hb, Option.some_bind] at h
        rcases List.mem_cons.mp hr with hcon | hr'
        · rw [Option.some_inj.mp hcon]
          exact hb
        · have := ih _ (idx + 1) m' h r hr'
          rwa [setRange_length] at this
      · rw [if_neg hb] at h
        simp at h

/-- C10: panic-freedom of the span conversion.  Under the regex adapter's
guarantee on AST spans (spec §3, modelled as `AstWf`), every byte span
yielded by the walker is itself well formed — within the pattern's byte
length and on UTF-8 character boundaries — so `convert_byte_range_to_char_range`
returns `some` for each of them, and `regex_parse_ast` as a whole returns
`some` (its `unwrap`s and the marker fill it guards cannot panic). -/
theorem c10_span_conversion_safety (regex : List Char) (ast : Ast)
    (prev : Option RegexLayout) (rs : List (Nat × NatRange))
    (hwf : AstWf regex ast) (hwalk : ast_find_capture_groups ast = some rs) :
    (∀ p ∈ rs, SpanWf regex p.2 ∧
      (convert_byte_range_to_char_range p.2 regex).isSome) ∧
    (regex_parse_ast regex ast prev).isSome := by
  have hspan : ∀ p ∈ rs, SpanWf regex p.2 := by
    intro p hp
    rcases walkAst_spans 0 ast [] rs hwalk p hp with hv | hg
    · simp at hv
    · exact hwf p.2 hg
  refine ⟨fun p hp => ⟨hspan p hp, convert_of_spanWf (hspan p hp)⟩, ?_⟩
  by_cases hne : regex = []
  · subst hne
    rw [regex_parse_ast_empty]
    rfl
  · unfold regex_parse_ast
    rw [if_neg (by simpa using hne), hwalk]
    simp only [Option.pure_def, Option.bind_eq_bind, Option.some_bind]
    have helem : ∀ dr ∈ rs,
        ((fun dr =>
          if dr.1 ≤ List.foldl Nat.max 0 (List.map Prod.fst rs) then
            (convert_byte_range_to_char_range dr.2 regex).bind fun cr =>
              some (List.foldl Nat.max 0 (List.map Prod.fst rs) - dr.1, cr)
          else none.bind fun y =>
            (convert_byte_range_to_char_range dr.2 regex).bind fun cr =>
              some (y, cr)) dr).isSome := by
      intro dr hdr
      have hle : dr.1 ≤ List.foldl Nat.max 0 (List.map Prod.fst rs) :=
        foldl_max_of_mem _ dr.1 (List.mem_map.mpr ⟨dr, hdr, rfl⟩) 0
      simp only [if_pos hle]
      obtain ⟨cr, hcr⟩ := Option.isSome_iff_exists.mp
        (convert_of_spanWf (hspan dr hdr))
      rw [hcr, Option.some_bind]
      rfl
    cases hm : rs.mapM (fun dr =>
        if dr.1 ≤ List.foldl Nat.max 0 (List.map Prod.fst rs) then
          (convert_byte_range_to_char_range dr.2 regex).bind fun cr =>
            some (List.foldl Nat.max 0 (List.map Prod.fst rs) - dr.1, cr)
        else none.bind fun y =>
          (convert_byte_range_to_char_range dr.2 regex).bind fun cr =>
            some (y, cr)) with
    | none =>
      have := mapM_isSome _ rs helem
      rw [hm] at this
      simp at this
    | some chars =>
      rw [Option.some_bind]
      have hfill : (fillOpt (List.replicate (utf8Len regex) 0)
          (rs.map (fun dr => some dr.2)) 0).isSome := by
        refine fillOpt_isSome _ _ 0 (fun r hr => ?_)
        obtain ⟨dr, hdr, hrdr⟩ := List.mem_map.mp hr
        obtain ⟨h1, h2, _, _⟩ := hspan dr hdr
        rw [← Option.some_inj.mp hrdr]
        simp only [List.length_replicate]
        exact ⟨h1, h2⟩
      obtain ⟨marker, hmk⟩ := Option.isSome_iff_exists.mp hfill
      rw [hmk, Option.some_bind]
      rfl

/-- Witness for C10 at a concrete input: the pattern `(a)` with its single
capture group spanning `[0, 3)`. -/
theorem c10_span_conversion_safety_witness :
    (convert_byte_range_to_char_range ⟨0, 3⟩ "(a)".toList).isSome ∧
    (regex_parse_ast "(a)".toList (Ast.group (some 1) ⟨0, 3⟩ Ast.atom)
      none).isSome :=
  have h := c10_span_conversion_safety "(a)".toList
    (Ast.group (some 1) ⟨0, 3⟩ Ast.atom) none [(0, ⟨0, 3⟩)]
    (by
      intro r hr
      simp only [astGroupSpans, List.mem_singleton] at hr
      subst hr
      exact ⟨by decide, by decide, ⟨0, by decide⟩, ⟨3, by decide⟩⟩)
    (by decide)
  ⟨(h.1 (0, ⟨0, 3⟩) (by decide)).2, h.2⟩

theorem flatten_map_singleton : ∀ (text : List Char),
    (text.map (fun c => c :: ([] : List Char))).flatten = text := by
  intro text
  induction text with
  | nil => rfl
  | cons c cs ih => simp [ih]

/-- C8 (counterexample to the claim as stated): for the empty input text the
input decoration of an empty pattern has zero format runs, not a single
plain run; and the empty-pattern `replace_all` of the spec's matcher
interleaves the template at every position, so for the template `X` the
replacement output of `ab` is `XaXbX`, not the input text. -/
theorem c8_empty_pattern_counterexample :
    (layout_matched_text ([] : List Char) emptyMatcher []).map
        (fun ml => ml.job.sections.length) = some 0 ∧
    emptyPatternReplaceAll "ab".toList "X".toList = "XaXbX".toList ∧
    "XaXbX".toList ≠ "ab".toList := by
  refine ⟨rfl, ?_, by decide⟩
  simp [emptyPatternReplaceAll, emptyExpand, isNameChar, List.dropWhile]

/-- C8 (amended): an empty pattern yields the empty default regex decoration
and an empty matches table for every input text; the input decoration is a
single plain run over the whole text when the text is non-empty and the
empty default decoration (zero runs) when the text is empty; the replacement
output is the input text with the template's empty-match expansion inserted
at every position, which equals the input text exactly when that expansion
is empty — as for the default template `$0`. -/
theorem c8_empty_pattern_amended :
    (∀ (ast : Ast) (prev : Option RegexLayout),
      regex_parse_ast [] ast prev = some {}) ∧
    (∀ colors : List Color32,
      layout_matched_text [] emptyMatcher colors = some {}) ∧
    (∀ (text : List Char) (colors : List Color32), text ≠ [] →
      layout_matched_text text emptyMatcher colors =
        some { job := layout_plain_text text, capture_group_chars := [] }) ∧
    (∀ (text template : List Char), emptyExpand template = [] →
      emptyPatternReplaceAll text template = text) ∧
    emptyExpand "$0".toList = [] := by
  refine ⟨fun ast prev => regex_parse_ast_empty ast prev,
    fun colors => layout_matched_text_empty_text emptyMatcher colors,
    fun text colors htext =>
      layout_matched_text_empty_pattern emptyMatcher colors htext rfl,
    ?_, ?_⟩
  · intro text template h
    unfold emptyPatternReplaceAll
    rw [h]
    simp only [List.nil_append]
    exact flatten_map_singleton text
  · simp [emptyExpand, isNameChar, List.dropWhile]

/-- Witness for C8's amended claim at a concrete input: the text `hello`
with the default template `$0`. -/
theorem c8_empty_pattern_amended_witness :
    layout_matched_text "hello".toList emptyMatcher [] =
      some { job := layout_plain_text "hello".toList
             capture_group_chars := [] } ∧
    emptyPatternReplaceAll "hello".toList "$0".toList = "hello".toList :=
  ⟨c8_empty_pattern_amended.2.2.1 "hello".toList [] (by decide),
    c8_empty_pattern_amended.2.2.2.1 "hello".toList "$0".toList
      c8_empty_pattern_amended.2.2.2.2⟩

theorem getD_of_length_le {α : Type} :
    ∀ (l : List α) (k : Nat) (d : α), l.length ≤ k → l.getD k d = d := by
  intro l
  induction l with
  | nil => intro k d _; cases k <;> rfl
  | cons x xs ih =>
    intro k d h
    cases k with
    | zero => simp at h
    | succ k' =>
      rw [List.getD_cons_succ]
      exact ih k' d (by simp at h; omega)

theorem getD_map_snd (rs : List (Nat × NatRange)) (k : Nat)
    (hk : k < rs.length) :
    (rs.map (fun dr => some dr.2)).getD k none =
      some ((rs.getD k (0, ⟨0, 0⟩)).2) := by
  rw [List.getD_eq_getElem _ _ (by simp [hk]), List.getD_eq_getElem _ _ hk]
  simp

/-- After the marker fill, the byte `b` covered by the `i`-th and the `j`-th
listed ranges (`i < j`) and by no later one holds the marker value `j + 1`:
last writer wins. -/
theorem marker_value_of_cover {rs : List (Option NatRange)} {m' : List Nat}
    {len i j b : Nat} {ri rj : NatRange}
    (hfill : fillOpt (List.replicate len 0) rs 0 = some m')
    (hij : i < j) (hjlen : j < rs.length)
    (hgi : rs.getD i none = some ri) (hbi : ri.holds b)
    (hgj : rs.getD j none = some rj) (hbj : rj.holds b)
    (hafter : ∀ k < rs.length, j < k → ∀ r',
      rs.getD k none = some r' → ¬ r'.holds b) :
    b < len ∧ m'.getD b 0 = j + 1 := by
  have hmem : some rj ∈ rs := by
    rw [List.getD_eq_getElem _ _ hjlen] at hgj
    exact hgj ▸ List.getElem_mem hjlen
  have hb := fillOpt_bounds rs _ 0 m' hfill rj hmem
  simp only [List.length_replicate] at hb
  have hblen : b < len := lt_of_lt_of_le hbj.2 hb.2
  refine ⟨hblen, ?_⟩
  have hget := fillOpt_getD rs _ 0 m' hfill b (by simp [hblen])
  rw [hget]
  have hrep : (List.replicate len 0).getD b 0 = 0 := by
    rw [List.getD_eq_getElem _ _ (by simp [hblen])]
    simp
  rw [hrep]
  have hlast := lastWriter_last_cover b rs 0 0 j rj hgj hbj (by
    intro k hk r' hr'
    by_cases hklen : k < rs.length
    · exact hafter k hklen hk r' hr'
    · rw [getD_of_length_le rs k none (by omega)] at hr'
      exact absurd hr' (by simp))
  rw [hlast]
  omega

/-- C1: overlap rule.  Part one: in the regex decoration, when the byte
spans of the `i`-th and `j`-th capture groups yielded by the walker overlap
at byte `b` (`i < j` in walker order) and no later-yielded group covers `b`,
every format run covering `b` carries the background color of group `j + 1`
— the group written later.  Part two: the walker order is outer-first —
a capturing group's own descriptor is pushed before anything from its
subtree.  Part three: the same marker-overwrite rule holds for the
input-text decoration of `layout_matched_text` for overlapping group ranges
within a match. -/
theorem c1_overlap_rule :
    (∀ (regex : List Char) (ast : Ast) (prev : Option RegexLayout)
        (L : RegexLayout) (rs : List (Nat × NatRange)) (i j b : Nat),
      regex_parse_ast regex ast prev = some L →
      ast_find_capture_groups ast = some rs →
      i < j → j < rs.length →
      (rs.getD i (0, ⟨0, 0⟩)).2.holds b → (rs.getD j (0, ⟨0, 0⟩)).2.holds b →
      (∀ k < rs.length, j < k → ¬ (rs.getD k (0, ⟨0, 0⟩)).2.holds b) →
      ∀ s ∈ L.job.sections, s.byte_range.holds b →
        s.format.background =
          L.capture_group_colors.getD (j + 1) Color32.transparent) ∧
    (∀ (depth i : Nat) (sp : NatRange) (child : Ast)
        (vec out : List (Nat × NatRange)),
      walkAst depth (.group (some i) sp child) vec = some out →
      ∃ rest, out = vec ++ (depth, sp) :: rest) ∧
    (∀ (text : List Char) (m : Matcher) (colors : List Color32)
        (ML : MatchedTextLayout) (c : List (Option NatRange))
        (i j b : Nat) (ri rj : NatRange),
      layout_matched_text text m colors = some ML →
      m.pattern ≠ [] →
      m.captures text = [c] →
      i < j → j < (c.drop 1).length →
      (c.drop 1).getD i none = some ri → ri.holds b →
      (c.drop 1).getD j none = some rj → rj.holds b →
      (∀ k < (c.drop 1).length, j < k → ∀ r',
        (c.drop 1).getD k none = some r' → ¬ r'.holds b) →
      ∀ s ∈ ML.job.sections, s.byte_range.holds b →
        s.format.background = colors.getD (j + 1) Color32.transparent) := by
  refine ⟨?_, walkAst_group_first, ?_⟩
  · intro regex ast prev L rs i j b hL hwalk hij hjlen hbi hbj hafter s hs hsb
    by_cases hne : regex = []
    · subst hne
      rw [regex_parse_ast_empty ast prev] at hL
      rw [← Option.some_inj.mp hL] at hs
      simp at hs
    · obtain ⟨ranges, marker, chars, hwalk', hfill, hLeq⟩ := regex_parse_ast_eq hL hne
      have hrr : ranges = rs := Option.some_inj.mp (hwalk'.symm.trans hwalk)
      subst hrr
      subst hLeq
      simp only at hs hsb ⊢
      have hmv := marker_value_of_cover hfill hij
        (by simp [hjlen])
        (getD_map_snd ranges i (by omega)) hbi
        (getD_map_snd ranges j hjlen) hbj
        (by
          intro k hk hjk r' hr'
          simp only [List.length_map] at hk
          rw [getD_map_snd ranges k hk] at hr'
          rw [← Option.some_inj.mp hr']
          exact hafter k hk hjk)
      have hlen := fillOpt_length _ _ _ _ hfill
      simp only [List.length_replicate] at hlen
      have hmne : marker ≠ [] := by
        intro hnil
        rw [hnil] at hlen
        simp at hlen
        have := utf8Len_pos hne
        omega
      have hfmt := rleSections_format
        (fun idx => TextFormat.background'
          ((Color32.transparent :: paletteCycle ranges.length).getD idx
            Color32.transparent)) marker hmne s hs b hsb.1 hsb.2
      rw [hfmt, hmv.2]
      rfl
  · intro text m colors ML c i j b ri rj hML hpat hcaps hij hjlen hgi hbi hgj
      hbj hafter s hs hsb
    by_cases htext : text = []
    · subst htext
      rw [layout_matched_text_empty_text m colors] at hML
      rw [← Option.some_inj.mp hML] at hs
      simp at hs
    · obtain ⟨marker, cgc, hcm, hMLeq⟩ := layout_matched_text_eq hML htext hpat
      subst hMLeq
      simp only at hs hsb ⊢
      rw [hcaps] at hcm
      obtain ⟨m', char_ranges, rest, hfill, hrec, _⟩ := collectMatches_eq hcm
      have hmm : m' = marker := by
        unfold collectMatches at hrec
        exact congrArg Prod.fst (Option.some_inj.mp hrec)
      subst hmm
      have hmv := marker_value_of_cover hfill hij hjlen hgi hbi hgj hbj hafter
      have hlen := fillOpt_length _ _ _ _ hfill
      simp only [List.length_replicate] at hlen
      have hmne : m' ≠ [] := by
        intro hnil
        rw [hnil] at hlen
        simp at hlen
        have := utf8Len_pos htext
        omega
      have hfmt := rleSections_format
        (fun idx => TextFormat.background'
          (colors.getD idx Color32.transparent)) m' hmne s hs b hsb.1 hsb.2
      rw [hfmt, hmv.2]
      rfl

/-- Witness for C1 at a concrete input: the pattern `((a)b)` (outer group
`[0,6)`, inner group `[1,4)`) — the run covering byte 2 of the regex carries
the inner (later-written) group's color; the walker pushes the outer group
before its subtree; and on the input `ab` matched with group ranges `[0,2)`
and `[0,1)`, the run covering byte 0 carries group 2's color. -/
theorem c1_overlap_rule_witness :
    ((⟨⟨1, 4⟩, ⟨Color32.white, Color32.fromRgb 108 94 32⟩⟩ :
        LayoutSection).format.background =
      [Color32.transparent, Color32.fromRgb 38 77 109,
        Color32.fromRgb 108 94 32].getD 2 Color32.transparent) ∧
    (∃ rest, [((0 : Nat), (⟨0, 6⟩ : NatRange))] =
      [] ++ (0, ⟨0, 6⟩) :: rest) ∧
    ((⟨⟨0, 1⟩, ⟨Color32.white, Color32.fromRgb 108 94 32⟩⟩ :
        LayoutSection).format.background =
      [Color32.transparent, Color32.fromRgb 38 77 109,
        Color32.fromRgb 108 94 32].getD 2 Color32.transparent) :=
  ⟨c1_overlap_rule.1 "((a)b)".toList
      (Ast.group (some 1) ⟨0, 6⟩ (Ast.concat (.cons
        (Ast.group (some 2) ⟨1, 4⟩ Ast.atom) (.cons Ast.atom .nil))))
      none
      { job := { text := "((a)b)".toList
                 sections :=
                  [⟨⟨0, 1⟩, ⟨Color32.white, Color32.fromRgb 38 77 109⟩⟩,
                   ⟨⟨1, 4⟩, ⟨Color32.white, Color32.fromRgb 108 94 32⟩⟩,
                   ⟨⟨4, 6⟩, ⟨Color32.white, Color32.fromRgb 38 77 109⟩⟩] }
        capture_group_chars := [(2, ⟨0, 6⟩), (0, ⟨1, 4⟩)]
        capture_group_colors :=
          [Color32.transparent, Color32.fromRgb 38 77 109,
            Color32.fromRgb 108 94 32] }
      [(0, ⟨0, 6⟩), (2, ⟨1, 4⟩)] 0 1 2
      (by decide) (by decide) (by decide) (by decide) (by decide) (by decide)
      (by decide)
      ⟨⟨1, 4⟩, ⟨Color32.white, Color32.fromRgb 108 94 32⟩⟩
      (by decide) (by decide),
    c1_overlap_rule.2.1 0 1 ⟨0, 6⟩ Ast.atom [] [(0, ⟨0, 6⟩)] (by decide),
    c1_overlap_rule.2.2 "ab".toList
      { pattern := "((a)b)".toList
        captures := fun _ => [[some ⟨0, 2⟩, some ⟨0, 2⟩, some ⟨0, 1⟩]]
        replaceAll := fun t _ => t }
      [Color32.transparent, Color32.fromRgb 38 77 109,
        Color32.fromRgb 108 94 32]
      { job := { text := "ab".toList
                 sections :=
                  [⟨⟨0, 1⟩, ⟨Color32.white, Color32.fromRgb 108 94 32⟩⟩,
                   ⟨⟨1, 2⟩, ⟨Color32.white, Color32.fromRgb 38 77 109⟩⟩] }
        capture_group_chars := [[some ⟨0, 2⟩, some ⟨0, 1⟩]] }
      [some ⟨0, 2⟩, some ⟨0, 2⟩, some ⟨0, 1⟩] 0 1 0 ⟨0, 2⟩ ⟨0, 1⟩
      (by decide) (by decide) (by decide) (by decide) (by decide) (by decide)
      (by decide) (by decide) (by decide) (by decide)
      ⟨⟨0, 1⟩, ⟨Color32.white, Color32.fromRgb 108 94 32⟩⟩
      (by decide) (by decide)⟩
